import Mathlib

/-!
Verification of the RAG knowledge-base component of
`src/packages/mcp-server/guru_mcp/tools/rag_knowledge_base.py`
(class `RAGKnowledgeBaseTool`).

Modelling conventions:
* Python `str` values are modelled as `List Char` (ASCII view of the
  character operations `lower`, `isalpha`, `isspace` that the code uses).
* Python `float` arithmetic is idealised as exact real arithmetic (`ℝ`);
  the intermediate word-frequency values are exact rationals (`ℚ`).
* Python's built-in `hash` (deterministic within one process) and
  `hashlib.md5` are opaque functions taken as parameters.
* SQLite tables are modelled as in-memory lists of rows in insertion order
  (ids model the AUTOINCREMENT primary keys).
-/

namespace GuruRag

/-- Python `str.split()` — split on whitespace, dropping empty pieces —
on the `List Char` view of a string. -/
def pySplit (s : List Char) : List (List Char) :=
  (s.splitOnP Char.isWhitespace).filter (fun w => w ≠ [])

/-- Python `str.strip()`: drop leading and trailing whitespace. -/
def pyStrip (s : List Char) : List Char :=
  ((s.dropWhile Char.isWhitespace).reverse.dropWhile Char.isWhitespace).reverse

/-- Python `str.lower()` (ASCII view). -/
def pyLower (s : List Char) : List Char := s.map Char.toLower

/-- Python `str.rfind(c, start, stop)`: the largest index `i` with
`start ≤ i < stop` and `s[i] = c`, or `-1` if there is none. -/
def pyRfind (s : List Char) (c : Char) (start stop : Nat) : Int :=
  s.enum.foldl (fun acc p =>
    if start ≤ p.1 && p.1 < stop && p.2 == c then (p.1 : Int) else acc) (-1)

/-- `self.chunk_size = 1000  # characters` -/
def chunk_size : Nat := 1000

/-- `self.chunk_overlap = 200  # character overlap between chunks` -/
def chunk_overlap : Nat := 200

/-- One entry of the list returned by `_create_document_chunks`:
a dict `{"content": ..., "start": ..., "end": ...}`.  The Python key
`end` is called `stop` here (`end` is reserved in Lean). -/
structure Chunk where
  content : List Char
  start : Nat
  stop : Nat
  deriving DecidableEq, Repr

/-- The `end` offset of the window starting at `start`:
`end = min(start + self.chunk_size, len(content))`, snapped back to just
after the last sentence-terminal character (`.`, `!`, `?`) when one occurs
past the middle of the window and the window does not already reach the end
of the document. -/
def windowEnd (content : List Char) (start : Nat) : Nat :=
  let e0 := min (start + chunk_size) content.length
  if e0 < content.length then
    let lastSentenceEnd : Int :=
      max (pyRfind content '.' start e0)
        (max (pyRfind content '!' start e0) (pyRfind content '?' start e0))
    if (start : Int) + (chunk_size / 2 : Nat) < lastSentenceEnd then
      lastSentenceEnd.toNat + 1
    else e0
  else e0

/-- The `while start < len(content)` loop of `_create_document_chunks`.
`fuel` bounds the number of iterations; `start` strictly increases on every
iteration, so `content.length + 1` iterations always suffice
(see `createDocumentChunks`). -/
def chunkLoop (content : List Char) : Nat → Nat → List Chunk
  | 0, _ => []
  | fuel + 1, start =>
    if start < content.length then
      let e := windowEnd content start
      let chunkContent := pyStrip ((content.drop start).take (e - start))
      let start' := max (start + chunk_size - chunk_overlap) e
      let rest := if start' < content.length then chunkLoop content fuel start' else []
      if chunkContent = [] then rest else ⟨chunkContent, start, e⟩ :: rest
    else []

/-- `_create_document_chunks(self, content)`. -/
def createDocumentChunks (content : List Char) : List Chunk :=
  chunkLoop content (content.length + 1) 0

/-- The coverage property claimed by the spec: every offset of the document
belongs to at least one produced chunk's `[start, stop)` range. -/
def chunksCover (chunks : List Chunk) (n : Nat) : Prop :=
  ∀ i < n, ∃ ch ∈ chunks, ch.start ≤ i ∧ i < ch.stop

instance (chunks : List Chunk) (n : Nat) : Decidable (chunksCover chunks n) := by
  unfold chunksCover; infer_instance

/-- Concrete document on which chunk coverage fails: 501 letters, then a
sentence-terminal period, then 600 more letters (1102 characters total). -/
def gapDoc : List Char := List.replicate 501 'a' ++ '.' :: List.replicate 600 'a'

/-- A small document without sentence punctuation, for the amended coverage
statement's witness. -/
def smallDoc : List Char := "aaa".data

/-! ## Embedding (`_create_simple_embedding`) -/

/-- `vector_size = 64`. -/
def vector_size : Nat := 64

/-- `word_hash = hash(word) % vector_size`, for the opaque in-process
Python `hash` (Python's `%` on a positive modulus is `Int.emod`). -/
def wordBucket (pyhash : List Char → Int) (w : List Char) : Nat :=
  ((pyhash w).emod (vector_size : Int)).toNat

/-- `words = text.lower().split()`. -/
def embWords (text : List Char) : List (List Char) := pySplit (pyLower text)

/-- `len(word) > 2 and word.isalpha()`. -/
def isKeptWord (w : List Char) : Bool := decide (2 < w.length) && w.all Char.isAlpha

/-- `word_freq[w]`: occurrences of the kept word `w` among the kept words. -/
def wordFreq (text : List Char) (w : List Char) : Nat :=
  ((embWords text).filter isKeptWord).count w

/-- The accumulator loop of `_create_simple_embedding`, over exact rationals:
starting from 64 zeroes, each distinct kept word `w` adds
`word_freq[w] / len(words)` at index `hash(w) % 64`. -/
def rawEmbedding (pyhash : List Char → Int) (text : List Char) : List ℚ :=
  (((embWords text).filter isKeptWord).dedup).foldl
    (fun vec w =>
      vec.set (wordBucket pyhash w)
        (vec.getD (wordBucket pyhash w) 0 +
          (wordFreq text w : ℚ) / ((embWords text).length : ℚ)))
    (List.replicate vector_size 0)

/-- `magnitude = sum(x * x for x in vector) ** 0.5`. -/
noncomputable def l2norm (v : List ℝ) : ℝ :=
  Real.sqrt ((v.map (fun x => x * x)).sum)

open Classical in
/-- `_create_simple_embedding(self, text)`: the accumulator vector viewed
over `ℝ`, divided componentwise by its magnitude when that is positive. -/
noncomputable def createSimpleEmbedding (pyhash : List Char → Int) (text : List Char) :
    List ℝ :=
  let vector : List ℝ := (rawEmbedding pyhash text).map (fun q : ℚ => (q : ℝ))
  let magnitude := l2norm vector
  if 0 < magnitude then vector.map (fun x => x / magnitude) else vector

/-- The 64-dimensional zero vector (what `_create_simple_embedding` returns
for text without any kept word). -/
def zeroVector : List ℝ := List.replicate vector_size 0

/-! ## Cosine similarity and retrieval (`_retrieve_relevant_chunks`) -/

open Classical in
/-- `_calculate_cosine_similarity(self, vec1, vec2)`. -/
noncomputable def calculateCosineSimilarity (vec1 vec2 : List ℝ) : ℝ :=
  if vec1.length ≠ vec2.length then 0
  else
    let dotProduct := (List.zipWith (fun a b => a * b) vec1 vec2).sum
    let magnitude1 := Real.sqrt ((vec1.map (fun a => a * a)).sum)
    let magnitude2 := Real.sqrt ((vec2.map (fun b => b * b)).sum)
    if magnitude1 = 0 ∨ magnitude2 = 0 then 0
    else dotProduct / (magnitude1 * magnitude2)

/-- One row of the SQL join in `_retrieve_relevant_chunks`:
`c.id, c.content, c.vector_embedding, c.document_id, d.filename, d.category`. -/
structure JoinedChunkRow where
  id : Nat
  content : List Char
  embedding : List ℝ
  documentId : Nat
  filename : String
  category : String

/-- One element appended to `scored_chunks`. -/
structure ScoredChunk where
  chunkId : Nat
  content : List Char
  documentId : Nat
  filename : String
  category : String
  score : ℝ
  vectorSimilarity : ℝ
  keywordOverlap : ℝ

/-- `query_words = set(query.lower().split())`, as a duplicate-free list. -/
def queryWordSet (query : List Char) : List (List Char) :=
  (pySplit (pyLower query)).dedup

/-- `len(query_words.intersection(chunk_words)) / len(query_words)
if query_words else 0`. -/
def keywordOverlapOf (query content : List Char) : ℚ :=
  let qw := queryWordSet query
  if qw = [] then 0
  else ((qw.filter (fun w => w ∈ pySplit (pyLower content))).length : ℚ) / (qw.length : ℚ)

/-- The body of the scoring loop of `_retrieve_relevant_chunks` for one row. -/
noncomputable def scoreRow (pyhash : List Char → Int) (query : List Char)
    (r : JoinedChunkRow) : ScoredChunk :=
  let vectorSimilarity :=
    calculateCosineSimilarity (createSimpleEmbedding pyhash query) r.embedding
  let keywordOverlap : ℝ := (keywordOverlapOf query r.content : ℝ)
  { chunkId := r.id, content := r.content, documentId := r.documentId,
    filename := r.filename, category := r.category,
    score := vectorSimilarity * 0.7 + keywordOverlap * 0.3,
    vectorSimilarity := vectorSimilarity, keywordOverlap := keywordOverlap }

open Classical in
/-- The scoring loop of `_retrieve_relevant_chunks`: a row is appended to
`scored_chunks` exactly when `combined_score > 0.1`. -/
noncomputable def scoredChunks (pyhash : List Char → Int) (query : List Char)
    (rows : List JoinedChunkRow) : List ScoredChunk :=
  rows.foldl (fun acc r =>
    let s := scoreRow pyhash query r
    if 0.1 < s.score then acc ++ [s] else acc) []

open Classical in
/-- `_retrieve_relevant_chunks`: `scored_chunks.sort(key=score, reverse=True)`
(Python's sort is stable, modelled by the stable `List.mergeSort`), then
`scored_chunks[:max_results]`. -/
noncomputable def retrieveRelevantChunks (pyhash : List Char → Int)
    (rows : List JoinedChunkRow) (query : List Char) (maxResults : Nat) :
    List ScoredChunk :=
  ((scoredChunks pyhash query rows).mergeSort
    (fun a b => decide (b.score ≤ a.score))).take maxResults

/-- `self.max_retrieval_chunks = 10`. -/
def max_retrieval_chunks : Nat := 10

/-- `_query_knowledge_base`'s retrieval step, with the caller-supplied
`max_results` defaulting to `self.max_retrieval_chunks`
(`args.get("max_results", self.max_retrieval_chunks)`). -/
noncomputable def queryKnowledgeBase (pyhash : List Char → Int)
    (rows : List JoinedChunkRow) (query : List Char) (maxResults : Option Nat) :
    List ScoredChunk :=
  retrieveRelevantChunks pyhash rows query (maxResults.getD max_retrieval_chunks)

/-! ## Ingestion (`_process_document_for_kb`, `_add_documents_to_kb`) -/

/-- One element of the `documents` argument of `add_documents`. -/
structure DocInput where
  filename : String
  content : List Char
  category : String

/-- One row of the `documents` table (the fields the claims depend on). -/
structure DocumentRow where
  id : Nat
  filename : String
  contentHash : List Char
  content : List Char
  category : String

/-- One row of the `chunks` table. -/
structure ChunkRow where
  id : Nat
  documentId : Nat
  chunkIndex : Nat
  content : List Char
  contentHash : List Char
  startPosition : Nat
  endPosition : Nat
  embedding : List ℝ

/-- The per-knowledge-base SQLite store (rows in insertion order; `id`
models the AUTOINCREMENT primary keys). -/
structure KBState where
  documents : List DocumentRow
  chunks : List ChunkRow

/-- The dict returned by `_process_document_for_kb` on success. -/
structure DocInfo where
  filename : String
  category : String
  documentId : Nat
  chunkCount : Nat
  contentHash : List Char
  deriving DecidableEq

/-- The `for i, chunk in enumerate(chunks)` insertion loop of
`_process_document_for_kb`: the chunk rows inserted for one document
(`chunkOffset` is the number of pre-existing rows of the `chunks` table,
continuing its AUTOINCREMENT ids). -/
noncomputable def newChunkRows (md5 : List Char → List Char)
    (pyhash : List Char → Int) (chunkOffset documentId : Nat)
    (content : List Char) : List ChunkRow :=
  (createDocumentChunks content).enum.map (fun p =>
    { id := chunkOffset + p.1 + 1, documentId := documentId,
      chunkIndex := p.1, content := p.2.content,
      contentHash := md5 p.2.content, startPosition := p.2.start,
      endPosition := p.2.stop,
      embedding := createSimpleEmbedding pyhash p.2.content })

/-- `_process_document_for_kb(self, doc, ...)`: reject whitespace-only
content, skip when the md5 content hash is already present, otherwise insert
the document row and (when `chunk_documents`) one chunk row per chunk with
its embedding.  `md5` is the opaque `hashlib.md5(...).hexdigest()`. -/
noncomputable def processDocumentForKb (md5 : List Char → List Char)
    (pyhash : List Char → Int) (st : KBState) (doc : DocInput)
    (chunkDocuments : Bool) : KBState × Option DocInfo :=
  if pyStrip doc.content = [] then (st, none)
  else
    let contentHash := md5 doc.content
    if (st.documents.find? (fun d => d.contentHash == contentHash)).isSome then (st, none)
    else
      let documentId := st.documents.length + 1
      let docRow : DocumentRow :=
        ⟨documentId, doc.filename, contentHash, doc.content, doc.category⟩
      let newChunks : List ChunkRow :=
        if chunkDocuments then
          newChunkRows md5 pyhash st.chunks.length documentId doc.content
        else []
      (⟨st.documents ++ [docRow], st.chunks ++ newChunks⟩,
       some ⟨doc.filename, doc.category, documentId, newChunks.length, contentHash⟩)

/-- The `document_count` / `chunk_count` counters of `config.json`. -/
structure KBConfig where
  documentCount : Nat
  chunkCount : Nat
  deriving DecidableEq

/-- The value returned by `_add_documents_to_kb`, with the updated store. -/
structure AddResult where
  state : KBState
  config : KBConfig
  added : List DocInfo
  skipped : List String
  totalChunks : Nat

/-- One iteration of the `for doc in documents` loop of
`_add_documents_to_kb`, threading (store, added, skipped, total chunks). -/
noncomputable def addStep (md5 : List Char → List Char) (pyhash : List Char → Int)
    (chunkDocuments : Bool) (acc : KBState × List DocInfo × List String × Nat)
    (doc : DocInput) : KBState × List DocInfo × List String × Nat :=
  match processDocumentForKb md5 pyhash acc.1 doc chunkDocuments with
  | (st', some info) => (st', acc.2.1 ++ [info], acc.2.2.1, acc.2.2.2 + info.chunkCount)
  | (st', none) => (st', acc.2.1, acc.2.2.1 ++ [doc.filename], acc.2.2.2)

/-- `_add_documents_to_kb`: process each document in order, then update the
configuration counters by the number of added documents and created chunks. -/
noncomputable def addDocumentsToKb (md5 : List Char → List Char)
    (pyhash : List Char → Int) (cfg : KBConfig) (st : KBState)
    (docs : List DocInput) (chunkDocuments : Bool) : AddResult :=
  let r := docs.foldl (addStep md5 pyhash chunkDocuments) (st, [], [], 0)
  { state := r.1,
    config := ⟨cfg.documentCount + r.2.1.length, cfg.chunkCount + r.2.2.2⟩,
    added := r.2.1, skipped := r.2.2.1, totalChunks := r.2.2.2 }

/-! ## Knowledge-base lookup and deletion -/

/-- One knowledge base on disk: its `config.json` names and counters plus
its SQLite store. -/
structure KBEntry where
  name : String
  safeName : String
  config : KBConfig
  state : KBState

/-- `config.get("name") == kb_name or config.get("safe_name") == kb_name`. -/
def kbMatches (kbName : String) (e : KBEntry) : Bool :=
  e.name == kbName || e.safeName == kbName

/-- `_load_knowledge_base_config`: first directory whose config matches. -/
def loadKnowledgeBaseConfig (store : List KBEntry) (kbName : String) :
    Option KBEntry :=
  store.find? (kbMatches kbName)

/-- Outcome of `_delete_knowledge_base` (message strings abstracted). -/
inductive DeleteOutcome
  | nameRequired
  | confirmPrompt (kbName : String)
  | notFound (kbName : String)
  | deleted (documentCount chunkCount : Nat)
  deriving DecidableEq

/-- `_delete_knowledge_base`: empty-name error, then the non-destructive
confirmation prompt when `confirm` is false, then lookup, then
`shutil.rmtree` of the matched knowledge base's directory. -/
def deleteKnowledgeBase (store : List KBEntry) (kbName : String)
    (confirm : Bool) : List KBEntry × DeleteOutcome :=
  if kbName = "" then (store, .nameRequired)
  else if ¬confirm then (store, .confirmPrompt kbName)
  else
    match loadKnowledgeBaseConfig store kbName with
    | none => (store, .notFound kbName)
    | some e =>
      (store.eraseP (kbMatches kbName),
       .deleted e.config.documentCount e.config.chunkCount)

/-- Outcome of `_get_knowledge_base_info` (statistics formatting abstracted). -/
inductive InfoOutcome
  | nameRequired
  | notFound (kbName : String)
  | info (e : KBEntry)

/-- `_get_knowledge_base_info` up to its knowledge-base lookup. -/
def getKnowledgeBaseInfo (store : List KBEntry) (kbName : String) : InfoOutcome :=
  if kbName = "" then .nameRequired
  else
    match loadKnowledgeBaseConfig store kbName with
    | none => .notFound kbName
    | some e => .info e

/-! ## The `execute` entry point -/

/-- The keys of `self.operations`, in insertion order. -/
def operationNames : List String :=
  ["create", "add_documents", "query", "list", "info", "delete", "update"]

/-- `args.get("operation", "query")`'s default. -/
def defaultOperation : String := "query"

/-- The `", ".join(self.operations.keys())` separator. -/
def availableSeparator : String := ", "

/-- `f"## Error\n\nUnknown operation: {operation}. Available: ..."`. -/
def unknownOperationMessage (operation : String) : String :=
  "## Error\n\nUnknown operation: " ++ operation ++ ". Available: " ++
    String.intercalate availableSeparator operationNames

/-- `f"## Error\n\nRAG operation failed: {str(e)}"`. -/
def operationFailedMessage (msg : String) : String :=
  "## Error\n\nRAG operation failed: " ++ msg

/-- `execute(self, args)`.  The seven operation handlers are opaque
parameters that may raise (`Except.error`); `strOfExn` models `str(e)`.
The overall result is `Except.ok` exactly when `execute` returns a string
instead of propagating an exception, and the `try`/`except Exception`
around the dispatch turns every handler exception into an error string. -/
def execute {α ε : Type} (handlers : String → α → Except ε String)
    (strOfExn : ε → String) (operationArg : Option String) (args : α) :
    Except ε String :=
  let operation := operationArg.getD defaultOperation
  if operation ∉ operationNames then
    Except.ok (unknownOperationMessage operation)
  else
    match handlers operation args with
    | Except.ok result => Except.ok result
    | Except.error e => Except.ok (operationFailedMessage (strOfExn e))

/-! ## Concrete inputs used by the witnesses -/

/-- A fingerprint function usable as a concrete stand-in for `md5`. -/
def md5Id : List Char → List Char := fun l => l

/-- A concrete stand-in for the in-process Python `hash`. -/
def pyhash0 : List Char → Int := fun _ => 0

def nameDocs : String := "docs"

def nameAMd : String := "a.md"

def nameBMd : String := "b.md"

def nameEmptyMd : String := "empty.md"

def categoryDocument : String := "document"

def operationBogus : String := "frobnicate"

def emptyKBState : KBState := ⟨[], []⟩

def sampleEntry : KBEntry :=
  { name := nameDocs, safeName := nameDocs, config := ⟨1, 2⟩, state := emptyKBState }

def sampleStore : List KBEntry := [sampleEntry]

def helloText : List Char := "hello".data

def shortTokensText : List Char := "ab cd".data

def unrelatedText : List Char := "goodbye world".data

def whitespaceText : List Char := "   ".data

def periodText : List Char := "hello world.".data

def sampleDocA : DocInput := { filename := nameAMd, content := periodText, category := categoryDocument }

def sampleDocB : DocInput := { filename := nameBMd, content := helloText, category := categoryDocument }

def sampleDocEmpty : DocInput := { filename := nameEmptyMd, content := whitespaceText, category := categoryDocument }

noncomputable def sampleSelfRow : JoinedChunkRow :=
  { id := 1, content := helloText, embedding := createSimpleEmbedding pyhash0 helloText,
    documentId := 1, filename := nameAMd, category := categoryDocument }

noncomputable def sampleOtherRow : JoinedChunkRow :=
  { id := 2, content := unrelatedText, embedding := [], documentId := 1,
    filename := nameAMd, category := categoryDocument }

/-! ## Helper lemmas -/

theorem foldl_if_append_eq_filter_map {α β : Type} (g : α → β) (p : β → Prop)
    [DecidablePred p] :
    ∀ (l : List α) (acc : List β),
      l.foldl (fun acc r => if p (g r) then acc ++ [g r] else acc) acc
        = acc ++ (l.map g).filter (fun b => decide (p b))
  | [], acc => by simp
  | r :: l, acc => by
    simp only [List.foldl_cons, List.map_cons, List.filter_cons]
    by_cases h : p (g r) <;>
      simp [h, foldl_if_append_eq_filter_map g p l, List.append_assoc]

theorem calculateCosineSimilarity_zero_left (vec1 vec2 : List ℝ)
    (h : ∀ x ∈ vec1, x = 0) :
    calculateCosineSimilarity vec1 vec2 = 0
    ∧ calculateCosineSimilarity vec2 vec1 = 0 := by
  have hsum : ((vec1.map fun a => a * a).sum) = 0 := by
    apply List.sum_eq_zero
    intro x hx
    obtain ⟨a, ha, rfl⟩ := List.mem_map.mp hx
    rw [h a ha, mul_zero]
  have hmag : Real.sqrt ((vec1.map fun a => a * a).sum) = 0 := by
    rw [hsum, Real.sqrt_zero]
  constructor
  · unfold calculateCosineSimilarity
    by_cases hl : vec1.length ≠ vec2.length
    · rw [if_pos hl]
    · rw [if_neg hl, if_pos (Or.inl hmag)]
  · unfold calculateCosineSimilarity
    by_cases hl : vec2.length ≠ vec1.length
    · rw [if_pos hl]
    · rw [if_neg hl, if_pos (Or.inr hmag)]

theorem scoredChunks_eq_filter_map (pyhash : List Char → Int) (query : List Char)
    (rows : List JoinedChunkRow) :
    scoredChunks pyhash query rows
      = (rows.map (scoreRow pyhash query)).filter
          (fun s => decide ((0.1 : ℝ) < s.score)) := by
  unfold scoredChunks
  exact foldl_if_append_eq_filter_map (scoreRow pyhash query)
    (fun s => (0.1 : ℝ) < s.score) rows []

/-! ## C10 — the `execute` entry point is total -/

/-- C10: `execute` never propagates an exception to its caller: an unknown
operation name yields an error string listing the available operations, a
handler exception is caught and turned into an error string, and in every
case the result is a normally returned string (`Except.ok`). -/
theorem execute_never_raises :
    (∀ (α ε : Type) (handlers : String → α → Except ε String)
        (strOfExn : ε → String) (operationArg : Option String) (args : α),
      ∃ s : String, execute handlers strOfExn operationArg args = Except.ok s)
  ∧ (∀ (α ε : Type) (handlers : String → α → Except ε String)
        (strOfExn : ε → String) (operationArg : Option String) (args : α),
      operationArg.getD defaultOperation ∉ operationNames →
        execute handlers strOfExn operationArg args
          = Except.ok (unknownOperationMessage (operationArg.getD defaultOperation)))
  ∧ (∀ (α ε : Type) (handlers : String → α → Except ε String)
        (strOfExn : ε → String) (operationArg : Option String) (args : α) (e : ε),
      operationArg.getD defaultOperation ∈ operationNames →
      handlers (operationArg.getD defaultOperation) args = Except.error e →
        execute handlers strOfExn operationArg args
          = Except.ok (operationFailedMessage (strOfExn e))) := by
  refine ⟨?_, ?_, ?_⟩
  · intro α ε handlers strOfExn operationArg args
    unfold execute
    by_cases h : operationArg.getD defaultOperation ∉ operationNames
    · exact ⟨unknownOperationMessage (operationArg.getD defaultOperation), by simp [h]⟩
    · cases hh : handlers (operationArg.getD defaultOperation) args with
      | ok r => exact ⟨r, by simp [h, hh]⟩
      | error e => exact ⟨operationFailedMessage (strOfExn e), by simp [h, hh]⟩
  · intro α ε handlers strOfExn operationArg args h
    simp [execute, h]
  · intro α ε handlers strOfExn operationArg args e hmem hh
    simp [execute, hmem, hh]

theorem execute_never_raises_witness :
    ((some operationBogus).getD defaultOperation ∉ operationNames
      ∧ execute (fun _ (_ : Unit) => (Except.ok defaultOperation : Except Nat String))
          (fun _ => defaultOperation) (some operationBogus) ()
          = Except.ok (unknownOperationMessage ((some operationBogus).getD defaultOperation)))
  ∧ ((none : Option String).getD defaultOperation ∈ operationNames
      ∧ (fun (_ : String) (_ : Unit) => (Except.error 7 : Except Nat String))
          ((none : Option String).getD defaultOperation) () = Except.error 7
      ∧ execute (fun _ (_ : Unit) => (Except.error 7 : Except Nat String))
          (fun _ => defaultOperation) (none : Option String) ()
          = Except.ok (operationFailedMessage defaultOperation)) :=
  ⟨⟨by decide,
    execute_never_raises.2.1 Unit Nat _ _ (some operationBogus) () (by decide)⟩,
   ⟨by decide, rfl,
    execute_never_raises.2.2 Unit Nat _ _ (none : Option String) () 7 (by decide) rfl⟩⟩

/-! ## C6 — deletion requires confirmation -/

/-- C6: deleting without confirmation changes nothing and returns the
confirmation prompt; deleting with confirmation removes the matched
knowledge base (its documents, chunks and metadata travel with the removed
entry), after which lookup and `info` report the knowledge base as not
found. -/
theorem delete_confirmation_semantics :
    (∀ (store : List KBEntry) (kbName : String),
      (deleteKnowledgeBase store kbName false).1 = store
      ∧ (kbName ≠ "" →
          (deleteKnowledgeBase store kbName false).2
            = DeleteOutcome.confirmPrompt kbName))
  ∧ (∀ (store : List KBEntry) (kbName : String) (e : KBEntry),
      kbName ≠ "" →
      loadKnowledgeBaseConfig store kbName = some e →
      store.countP (kbMatches kbName) = 1 →
        (deleteKnowledgeBase store kbName true).1 = store.eraseP (kbMatches kbName)
        ∧ (deleteKnowledgeBase store kbName true).2
            = DeleteOutcome.deleted e.config.documentCount e.config.chunkCount
        ∧ loadKnowledgeBaseConfig (deleteKnowledgeBase store kbName true).1 kbName
            = none
        ∧ getKnowledgeBaseInfo (deleteKnowledgeBase store kbName true).1 kbName
            = InfoOutcome.notFound kbName) := by
  constructor
  · intro store kbName
    constructor
    · unfold deleteKnowledgeBase
      by_cases h : kbName = "" <;> simp [h]
    · intro h
      simp [deleteKnowledgeBase, h]
  · intro store kbName e hne hfind hcount
    have hdel :
        deleteKnowledgeBase store kbName true
          = (store.eraseP (kbMatches kbName),
             DeleteOutcome.deleted e.config.documentCount e.config.chunkCount) := by
      unfold deleteKnowledgeBase
      rw [hfind]
      simp [hne]
    have hmem : e ∈ store := List.mem_of_find?_eq_some hfind
    have hp : kbMatches kbName e := List.find?_some hfind
    obtain ⟨a, l₁, l₂, hl₁, hpa, hsplit, herase⟩ := List.exists_of_eraseP hmem hp
    have hcount' : l₂.countP (kbMatches kbName) = 0 := by
      have h1 := hcount
      rw [hsplit, List.countP_append, List.countP_cons,
        List.countP_eq_zero.mpr hl₁] at h1
      rw [if_pos hpa] at h1
      omega
    have hnone :
        loadKnowledgeBaseConfig (store.eraseP (kbMatches kbName)) kbName = none := by
      rw [herase]
      unfold loadKnowledgeBaseConfig
      rw [List.find?_eq_none]
      intro x hx
      rcases List.mem_append.mp hx with hx1 | hx2
      · exact hl₁ x hx1
      · exact List.countP_eq_zero.mp hcount' x hx2
    refine ⟨by rw [hdel], by rw [hdel], ?_, ?_⟩
    · rw [hdel]
      exact hnone
    · rw [hdel]
      simp only [getKnowledgeBaseInfo, hne, if_neg]
      rw [hnone]
      simp [hne]

theorem delete_confirmation_semantics_witness :
    ((deleteKnowledgeBase sampleStore nameDocs false).1 = sampleStore
      ∧ (nameDocs ≠ "" →
          (deleteKnowledgeBase sampleStore nameDocs false).2
            = DeleteOutcome.confirmPrompt nameDocs))
  ∧ (nameDocs ≠ ""
      ∧ loadKnowledgeBaseConfig sampleStore nameDocs = some sampleEntry
      ∧ sampleStore.countP (kbMatches nameDocs) = 1
      ∧ loadKnowledgeBaseConfig (deleteKnowledgeBase sampleStore nameDocs true).1 nameDocs
          = none) :=
  ⟨delete_confirmation_semantics.1 sampleStore nameDocs,
   by decide, rfl, by decide,
   (delete_confirmation_semantics.2 sampleStore nameDocs sampleEntry
      (by decide) rfl (by decide)).2.2.1⟩

/-! ## C3 — the retrieval scoring formula -/

/-- C3: retrieval keeps exactly the chunks whose combined score exceeds the
fixed `0.1` threshold; each score is
`0.7 * cosine_similarity + 0.3 * keyword_overlap`; cosine similarity is `0`
when the vector lengths differ or either vector is zero; keyword overlap is
`0` when the query has no tokens. -/
theorem retrieval_score_formula :
    (∀ (pyhash : List Char → Int) (query : List Char)
        (rows : List JoinedChunkRow),
      scoredChunks pyhash query rows
        = (rows.map (scoreRow pyhash query)).filter
            (fun s => decide ((0.1 : ℝ) < s.score)))
  ∧ (∀ (pyhash : List Char → Int) (query : List Char) (r : JoinedChunkRow),
      (scoreRow pyhash query r).score
        = 0.7 * calculateCosineSimilarity (createSimpleEmbedding pyhash query)
              r.embedding
          + 0.3 * (keywordOverlapOf query r.content : ℝ))
  ∧ (∀ vec1 vec2 : List ℝ, vec1.length ≠ vec2.length →
      calculateCosineSimilarity vec1 vec2 = 0)
  ∧ (∀ vec1 vec2 : List ℝ, (∀ x ∈ vec1, x = 0) →
      calculateCosineSimilarity vec1 vec2 = 0
      ∧ calculateCosineSimilarity vec2 vec1 = 0)
  ∧ (∀ query content : List Char, queryWordSet query = [] →
      keywordOverlapOf query content = 0) := by
  refine ⟨scoredChunks_eq_filter_map, ?_, ?_, ?_, ?_⟩
  · intro pyhash query r
    simp only [scoreRow]
    ring
  · intro vec1 vec2 h
    simp [calculateCosineSimilarity, h]
  · exact calculateCosineSimilarity_zero_left
  · intro query content h
    simp [keywordOverlapOf, h]

theorem retrieval_score_formula_witness :
    (((List.cons (1 : ℝ) []).length ≠ ([] : List ℝ).length
        ∧ calculateCosineSimilarity (List.cons (1 : ℝ) []) [] = 0)
      ∧ ((∀ x ∈ List.cons (0 : ℝ) [], x = 0)
        ∧ calculateCosineSimilarity (List.cons (0 : ℝ) []) (List.cons (1 : ℝ) []) = 0))
  ∧ (queryWordSet [] = [] ∧ keywordOverlapOf [] helloText = 0) :=
  ⟨⟨⟨by decide,
     retrieval_score_formula.2.2.1 (List.cons (1 : ℝ) []) [] (by decide)⟩,
    ⟨by simp,
     (retrieval_score_formula.2.2.2.1 (List.cons (0 : ℝ) [])
        (List.cons (1 : ℝ) []) (by simp)).1⟩⟩,
   ⟨by decide, retrieval_score_formula.2.2.2.2 [] helloText (by decide)⟩⟩

/-! ## C2 — idempotent ingestion -/

theorem processDocumentForKb_skip (md5 : List Char → List Char)
    (pyhash : List Char → Int) (st : KBState) (doc : DocInput)
    (chunkDocuments : Bool)
    (h : ∃ d ∈ st.documents, d.contentHash = md5 doc.content) :
    processDocumentForKb md5 pyhash st doc chunkDocuments = (st, none) := by
  by_cases hc : pyStrip doc.content = []
  · simp [processDocumentForKb, hc]
  · have hfind :
        (st.documents.find? (fun d => d.contentHash == md5 doc.content)).isSome := by
      rw [List.find?_isSome]
      obtain ⟨d, hd, he⟩ := h
      exact ⟨d, hd, by simp [he]⟩
    simp [processDocumentForKb, hc, hfind]

theorem processDocumentForKb_insert (md5 : List Char → List Char)
    (pyhash : List Char → Int) (st : KBState) (doc : DocInput)
    (chunkDocuments : Bool)
    (hc : pyStrip doc.content ≠ [])
    (hnew : ∀ d ∈ st.documents, d.contentHash ≠ md5 doc.content) :
    processDocumentForKb md5 pyhash st doc chunkDocuments
      = (⟨st.documents ++
            [⟨st.documents.length + 1, doc.filename, md5 doc.content,
              doc.content, doc.category⟩],
          st.chunks ++
            (if chunkDocuments then
              newChunkRows md5 pyhash st.chunks.length (st.documents.length + 1)
                doc.content
            else [])⟩,
         some ⟨doc.filename, doc.category, st.documents.length + 1,
           (if chunkDocuments then
              newChunkRows md5 pyhash st.chunks.length (st.documents.length + 1)
                doc.content
            else []).length, md5 doc.content⟩) := by
  have hfind :
      st.documents.find? (fun d => d.contentHash == md5 doc.content) = none := by
    rw [List.find?_eq_none]
    intro d hd
    simp [hnew d hd]
  simp [processDocumentForKb, hc, hfind]

theorem addDocumentsToKb_singleton (md5 : List Char → List Char)
    (pyhash : List Char → Int) (cfg : KBConfig) (st : KBState) (doc : DocInput)
    (chunkDocuments : Bool) :
    addDocumentsToKb md5 pyhash cfg st [doc] chunkDocuments
      = match processDocumentForKb md5 pyhash st doc chunkDocuments with
        | (st', some info) =>
          { state := st',
            config := ⟨cfg.documentCount + 1, cfg.chunkCount + info.chunkCount⟩,
            added := [info], skipped := [], totalChunks := info.chunkCount }
        | (st', none) =>
          { state := st', config := cfg, added := [],
            skipped := [doc.filename], totalChunks := 0 } := by
  cases hp : processDocumentForKb md5 pyhash st doc chunkDocuments with
  | mk st' oinfo =>
    cases oinfo with
    | some info => simp [addDocumentsToKb, addStep, hp]
    | none => simp [addDocumentsToKb, addStep, hp]

/-- C2: re-adding content whose fingerprint is already present stores
nothing and is reported as a skip; ingesting the same content twice leaves
the store, the chunk rows and the configured counts of the first ingestion
unchanged, reports the second copy as skipped, and exactly one stored
document carries that fingerprint. -/
theorem ingestion_idempotent :
    (∀ (md5 : List Char → List Char) (pyhash : List Char → Int) (st : KBState)
        (doc : DocInput) (chunkDocuments : Bool),
      (∃ d ∈ st.documents, d.contentHash = md5 doc.content) →
        processDocumentForKb md5 pyhash st doc chunkDocuments = (st, none))
  ∧ (∀ (md5 : List Char → List Char) (pyhash : List Char → Int) (cfg : KBConfig)
        (st : KBState) (doc : DocInput) (chunkDocuments : Bool),
      pyStrip doc.content ≠ [] →
      (∀ d ∈ st.documents, d.contentHash ≠ md5 doc.content) →
      (addDocumentsToKb md5 pyhash
          (addDocumentsToKb md5 pyhash cfg st [doc] chunkDocuments).config
          (addDocumentsToKb md5 pyhash cfg st [doc] chunkDocuments).state
          [doc] chunkDocuments).state
        = (addDocumentsToKb md5 pyhash cfg st [doc] chunkDocuments).state
      ∧ (addDocumentsToKb md5 pyhash
          (addDocumentsToKb md5 pyhash cfg st [doc] chunkDocuments).config
          (addDocumentsToKb md5 pyhash cfg st [doc] chunkDocuments).state
          [doc] chunkDocuments).config
        = (addDocumentsToKb md5 pyhash cfg st [doc] chunkDocuments).config
      ∧ (addDocumentsToKb md5 pyhash
          (addDocumentsToKb md5 pyhash cfg st [doc] chunkDocuments).config
          (addDocumentsToKb md5 pyhash cfg st [doc] chunkDocuments).state
          [doc] chunkDocuments).added = []
      ∧ (addDocumentsToKb md5 pyhash
          (addDocumentsToKb md5 pyhash cfg st [doc] chunkDocuments).config
          (addDocumentsToKb md5 pyhash cfg st [doc] chunkDocuments).state
          [doc] chunkDocuments).skipped = [doc.filename]
      ∧ (addDocumentsToKb md5 pyhash
          (addDocumentsToKb md5 pyhash cfg st [doc] chunkDocuments).config
          (addDocumentsToKb md5 pyhash cfg st [doc] chunkDocuments).state
          [doc] chunkDocuments).totalChunks = 0
      ∧ ((addDocumentsToKb md5 pyhash cfg st [doc] chunkDocuments).state.documents.filter
          (fun d => d.contentHash == md5 doc.content)).length = 1) := by
  refine ⟨processDocumentForKb_skip, ?_⟩
  intro md5 pyhash cfg st doc chunkDocuments hc hnew
  have hproc1 := processDocumentForKb_insert md5 pyhash st doc chunkDocuments hc hnew
  have hr1 := addDocumentsToKb_singleton md5 pyhash cfg st doc chunkDocuments
  rw [hproc1] at hr1
  have hmem :
      ∃ d ∈ (addDocumentsToKb md5 pyhash cfg st [doc] chunkDocuments).state.documents,
        d.contentHash = md5 doc.content := by
    rw [hr1]
    exact ⟨_, List.mem_append_right _ (List.mem_singleton.mpr rfl), rfl⟩
  have hproc2 := processDocumentForKb_skip md5 pyhash
    (addDocumentsToKb md5 pyhash cfg st [doc] chunkDocuments).state doc
    chunkDocuments hmem
  have hr2 := addDocumentsToKb_singleton md5 pyhash
    (addDocumentsToKb md5 pyhash cfg st [doc] chunkDocuments).config
    (addDocumentsToKb md5 pyhash cfg st [doc] chunkDocuments).state doc chunkDocuments
  rw [hproc2] at hr2
  refine ⟨by rw [hr2], ?_, by rw [hr2], by rw [hr2], by rw [hr2], ?_⟩
  · rw [hr2]
  · rw [hr1]
    simp only [List.filter_append]
    rw [List.filter_eq_nil_iff.mpr (by intro d hd; simp [hnew d hd])]
    simp

theorem ingestion_idempotent_witness :
    (pyStrip sampleDocA.content ≠ []
      ∧ (∀ d ∈ emptyKBState.documents, d.contentHash ≠ md5Id sampleDocA.content))
  ∧ ((addDocumentsToKb md5Id pyhash0
        (addDocumentsToKb md5Id pyhash0 ⟨0, 0⟩ emptyKBState [sampleDocA] true).config
        (addDocumentsToKb md5Id pyhash0 ⟨0, 0⟩ emptyKBState [sampleDocA] true).state
        [sampleDocA] true).skipped = [sampleDocA.filename]
      ∧ ((addDocumentsToKb md5Id pyhash0 ⟨0, 0⟩ emptyKBState [sampleDocA]
            true).state.documents.filter
          (fun d => d.contentHash == md5Id sampleDocA.content)).length = 1) :=
  ⟨⟨by decide, by simp [emptyKBState]⟩,
   (ingestion_idempotent.2 md5Id pyhash0 ⟨0, 0⟩ emptyKBState sampleDocA true
      (by decide) (by simp [emptyKBState])).2.2.2.1,
   (ingestion_idempotent.2 md5Id pyhash0 ⟨0, 0⟩ emptyKBState sampleDocA true
      (by decide) (by simp [emptyKBState])).2.2.2.2.2⟩

/-! ## C8 — empty documents are per-item failures, not batch aborts -/

theorem addFold_shift (md5 : List Char → List Char) (pyhash : List Char → Int)
    (chunkDocuments : Bool) :
    ∀ (docs : List DocInput) (acc : KBState × List DocInfo × List String × Nat),
      docs.foldl (addStep md5 pyhash chunkDocuments) acc
        = ((docs.foldl (addStep md5 pyhash chunkDocuments) (acc.1, [], [], 0)).1,
           acc.2.1 ++
             (docs.foldl (addStep md5 pyhash chunkDocuments) (acc.1, [], [], 0)).2.1,
           acc.2.2.1 ++
             (docs.foldl (addStep md5 pyhash chunkDocuments) (acc.1, [], [], 0)).2.2.1,
           acc.2.2.2 +
             (docs.foldl (addStep md5 pyhash chunkDocuments) (acc.1, [], [], 0)).2.2.2)
  | [], acc => by simp
  | doc :: docs, acc => by
    simp only [List.foldl_cons]
    cases hp : processDocumentForKb md5 pyhash acc.1 doc chunkDocuments with
    | mk st' oinfo =>
      cases oinfo with
      | some info =>
        rw [show addStep md5 pyhash chunkDocuments acc doc
            = (st', acc.2.1 ++ [info], acc.2.2.1, acc.2.2.2 + info.chunkCount) from by
          simp [addStep, hp]]
        rw [show addStep md5 pyhash chunkDocuments (acc.1, [], [], 0) doc
            = (st', [info], [], info.chunkCount) from by simp [addStep, hp]]
        rw [addFold_shift md5 pyhash chunkDocuments docs
          (st', acc.2.1 ++ [info], acc.2.2.1, acc.2.2.2 + info.chunkCount)]
        rw [addFold_shift md5 pyhash chunkDocuments docs
          (st', [info], [], info.chunkCount)]
        simp [List.append_assoc, Nat.add_assoc]
      | none =>
        rw [show addStep md5 pyhash chunkDocuments acc doc
            = (st', acc.2.1, acc.2.2.1 ++ [doc.filename], acc.2.2.2) from by
          simp [addStep, hp]]
        rw [show addStep md5 pyhash chunkDocuments (acc.1, [], [], 0) doc
            = (st', [], [doc.filename], 0) from by simp [addStep, hp]]
        rw [addFold_shift md5 pyhash chunkDocuments docs
          (st', acc.2.1, acc.2.2.1 ++ [doc.filename], acc.2.2.2)]
        rw [addFold_shift md5 pyhash chunkDocuments docs
          (st', [], [doc.filename], 0)]
        simp [List.append_assoc, Nat.add_assoc]

/-- C8: a whitespace-only document in a batch is not stored, is reported in
the skipped list, and does not abort the batch: the store, the configured
counts, the added list and the chunk total agree with the run on the batch
with that document removed, and its filename is reported between the skips
of the preceding and following sub-batches. -/
theorem empty_content_partial_failure (md5 : List Char → List Char)
    (pyhash : List Char → Int) (cfg : KBConfig) (st : KBState)
    (pre post : List DocInput) (d : DocInput) (chunkDocuments : Bool)
    (hd : pyStrip d.content = []) :
    (addDocumentsToKb md5 pyhash cfg st (pre ++ d :: post) chunkDocuments).state
      = (addDocumentsToKb md5 pyhash cfg st (pre ++ post) chunkDocuments).state
    ∧ (addDocumentsToKb md5 pyhash cfg st (pre ++ d :: post) chunkDocuments).config
      = (addDocumentsToKb md5 pyhash cfg st (pre ++ post) chunkDocuments).config
    ∧ (addDocumentsToKb md5 pyhash cfg st (pre ++ d :: post) chunkDocuments).added
      = (addDocumentsToKb md5 pyhash cfg st (pre ++ post) chunkDocuments).added
    ∧ (addDocumentsToKb md5 pyhash cfg st (pre ++ d :: post) chunkDocuments).totalChunks
      = (addDocumentsToKb md5 pyhash cfg st (pre ++ post) chunkDocuments).totalChunks
    ∧ d.filename
        ∈ (addDocumentsToKb md5 pyhash cfg st (pre ++ d :: post) chunkDocuments).skipped
    ∧ (addDocumentsToKb md5 pyhash cfg st (pre ++ d :: post) chunkDocuments).skipped
      = (addDocumentsToKb md5 pyhash cfg st pre chunkDocuments).skipped
        ++ d.filename ::
          (addDocumentsToKb md5 pyhash cfg
            (addDocumentsToKb md5 pyhash cfg st pre chunkDocuments).state
            post chunkDocuments).skipped := by
  have hdproc : ∀ st' : KBState,
      processDocumentForKb md5 pyhash st' d chunkDocuments = (st', none) := by
    intro st'
    simp [processDocumentForKb, hd]
  have hstep : ∀ (st' : KBState) a s n,
      addStep md5 pyhash chunkDocuments (st', a, s, n) d
        = (st', a, s ++ [d.filename], n) := by
    intro st' a s n
    simp [addStep, hdproc st']
  have hfa : ∀ acc : KBState × List DocInfo × List String × Nat,
      addStep md5 pyhash chunkDocuments acc d
        = (acc.1, acc.2.1, acc.2.2.1 ++ [d.filename], acc.2.2.2) := by
    intro acc
    exact hstep acc.1 acc.2.1 acc.2.2.1 acc.2.2.2
  have hfull :
      (pre ++ d :: post).foldl (addStep md5 pyhash chunkDocuments) (st, [], [], 0)
        = ((post.foldl (addStep md5 pyhash chunkDocuments)
              ((pre.foldl (addStep md5 pyhash chunkDocuments) (st, [], [], 0)).1,
                [], [], 0)).1,
           (pre.foldl (addStep md5 pyhash chunkDocuments) (st, [], [], 0)).2.1 ++
             (post.foldl (addStep md5 pyhash chunkDocuments)
               ((pre.foldl (addStep md5 pyhash chunkDocuments) (st, [], [], 0)).1,
                 [], [], 0)).2.1,
           ((pre.foldl (addStep md5 pyhash chunkDocuments) (st, [], [], 0)).2.2.1 ++
               [d.filename]) ++
             (post.foldl (addStep md5 pyhash chunkDocuments)
               ((pre.foldl (addStep md5 pyhash chunkDocuments) (st, [], [], 0)).1,
                 [], [], 0)).2.2.1,
           (pre.foldl (addStep md5 pyhash chunkDocuments) (st, [], [], 0)).2.2.2 +
             (post.foldl (addStep md5 pyhash chunkDocuments)
               ((pre.foldl (addStep md5 pyhash chunkDocuments) (st, [], [], 0)).1,
                 [], [], 0)).2.2.2) := by
    rw [List.foldl_append, List.foldl_cons, hfa]
    rw [addFold_shift md5 pyhash chunkDocuments post]
  have hwithout :
      (pre ++ post).foldl (addStep md5 pyhash chunkDocuments) (st, [], [], 0)
        = ((post.foldl (addStep md5 pyhash chunkDocuments)
              ((pre.foldl (addStep md5 pyhash chunkDocuments) (st, [], [], 0)).1,
                [], [], 0)).1,
           (pre.foldl (addStep md5 pyhash chunkDocuments) (st, [], [], 0)).2.1 ++
             (post.foldl (addStep md5 pyhash chunkDocuments)
               ((pre.foldl (addStep md5 pyhash chunkDocuments) (st, [], [], 0)).1,
                 [], [], 0)).2.1,
           (pre.foldl (addStep md5 pyhash chunkDocuments) (st, [], [], 0)).2.2.1 ++
             (post.foldl (addStep md5 pyhash chunkDocuments)
               ((pre.foldl (addStep md5 pyhash chunkDocuments) (st, [], [], 0)).1,
                 [], [], 0)).2.2.1,
           (pre.foldl (addStep md5 pyhash chunkDocuments) (st, [], [], 0)).2.2.2 +
             (post.foldl (addStep md5 pyhash chunkDocuments)
               ((pre.foldl (addStep md5 pyhash chunkDocuments) (st, [], [], 0)).1,
                 [], [], 0)).2.2.2) := by
    rw [List.foldl_append]
    rw [addFold_shift md5 pyhash chunkDocuments post]
  refine ⟨?_, ?_, ?_, ?_, ?_, ?_⟩
  · simp only [addDocumentsToKb, hfull, hwithout]
  · simp only [addDocumentsToKb, hfull, hwithout]
  · simp only [addDocumentsToKb, hfull, hwithout]
  · simp only [addDocumentsToKb, hfull, hwithout]
  · simp only [addDocumentsToKb, hfull]
    exact List.mem_append_left _ (List.mem_append_right _ (List.mem_singleton.mpr rfl))
  · simp only [addDocumentsToKb, hfull]
    simp [List.append_assoc]

theorem empty_content_partial_failure_witness :
    pyStrip sampleDocEmpty.content = []
    ∧ sampleDocEmpty.filename
        ∈ (addDocumentsToKb md5Id pyhash0 ⟨0, 0⟩ emptyKBState
            ([sampleDocA] ++ sampleDocEmpty :: [sampleDocB]) true).skipped :=
  ⟨by decide,
   (empty_content_partial_failure md5Id pyhash0 ⟨0, 0⟩ emptyKBState
      [sampleDocA] [sampleDocB] sampleDocEmpty true (by decide)).2.2.2.2.1⟩

/-! ## C5 — embedding determinism, zero case and normalisation -/

theorem wordBucket_lt (pyhash : List Char → Int) (w : List Char) :
    wordBucket pyhash w < vector_size := by
  unfold wordBucket vector_size
  have h1 : (0 : Int) ≤ (pyhash w).emod ((64 : Nat) : Int) :=
    Int.emod_nonneg _ (by decide)
  have h2 : (pyhash w).emod ((64 : Nat) : Int) < 64 :=
    Int.emod_lt_of_pos _ (by decide)
  omega

theorem embFold_length (pyhash : List Char → Int) (text : List Char) :
    ∀ (l : List (List Char)) (vec : List ℚ),
      (l.foldl (fun vec w =>
        vec.set (wordBucket pyhash w)
          (vec.getD (wordBucket pyhash w) 0 +
            (wordFreq text w : ℚ) / ((embWords text).length : ℚ))) vec).length
        = vec.length
  | [], _ => rfl
  | w :: l, vec => by
    rw [List.foldl_cons, embFold_length pyhash text l]
    exact List.length_set _ _ _

theorem rawEmbedding_length (pyhash : List Char → Int) (text : List Char) :
    (rawEmbedding pyhash text).length = vector_size := by
  unfold rawEmbedding
  rw [embFold_length]
  exact List.length_replicate _ _

theorem sum_set_getD : ∀ (l : List ℚ) (b : Nat) (q : ℚ), b < l.length →
    (l.set b (l.getD b 0 + q)).sum = l.sum + q
  | [], b, q, h => by simp at h
  | x :: l, 0, q, _ => by simp; ring
  | x :: l, b + 1, q, h => by
    simp only [List.set_cons_succ, List.getD_cons_succ, List.sum_cons]
    rw [sum_set_getD l b q (by simpa using h)]
    ring

theorem embFold_sum (pyhash : List Char → Int) (text : List Char) :
    ∀ (l : List (List Char)) (vec : List ℚ), vec.length = vector_size →
      (l.foldl (fun vec w =>
        vec.set (wordBucket pyhash w)
          (vec.getD (wordBucket pyhash w) 0 +
            (wordFreq text w : ℚ) / ((embWords text).length : ℚ))) vec).sum
        = vec.sum +
            (l.map (fun w =>
              (wordFreq text w : ℚ) / ((embWords text).length : ℚ))).sum
  | [], vec, _ => by simp
  | w :: l, vec, h => by
    rw [List.foldl_cons,
      embFold_sum pyhash text l _ (by rw [List.length_set]; exact h),
      sum_set_getD vec (wordBucket pyhash w) _
        (by rw [h]; exact wordBucket_lt pyhash w)]
    simp only [List.map_cons, List.sum_cons]
    ring

theorem rawEmbedding_sum_pos (pyhash : List Char → Int) (text : List Char)
    (h : (embWords text).filter isKeptWord ≠ []) :
    0 < (rawEmbedding pyhash text).sum := by
  unfold rawEmbedding
  rw [embFold_sum pyhash text _ _ (List.length_replicate _ _)]
  have hz : (List.replicate vector_size (0 : ℚ)).sum = 0 := by simp
  rw [hz, zero_add]
  have hded : ((embWords text).filter isKeptWord).dedup ≠ [] := by
    rw [Ne, List.dedup_eq_nil]
    exact h
  obtain ⟨w, rest, hwl⟩ := List.exists_cons_of_ne_nil hded
  rw [hwl, List.map_cons, List.sum_cons]
  have hwmem : w ∈ (embWords text).filter isKeptWord :=
    List.mem_dedup.mp (hwl ▸ List.mem_cons_self _ _)
  have hfreq : 0 < wordFreq text w := List.count_pos_iff.mpr hwmem
  have hlen : 0 < (embWords text).length := by
    cases he : embWords text with
    | nil => rw [he] at h; simp at h
    | cons a t => simp [he]
  have hq : 0 < (wordFreq text w : ℚ) / ((embWords text).length : ℚ) :=
    div_pos (by exact_mod_cast hfreq) (by exact_mod_cast hlen)
  have hrest :
      0 ≤ (rest.map (fun w =>
        (wordFreq text w : ℚ) / ((embWords text).length : ℚ))).sum := by
    apply List.sum_nonneg
    intro x hx
    obtain ⟨w', _, rfl⟩ := List.mem_map.mp hx
    exact div_nonneg (by positivity) (by positivity)
  linarith

theorem createSimpleEmbedding_of_kept_nil (pyhash : List Char → Int)
    (text : List Char) (h : (embWords text).filter isKeptWord = []) :
    createSimpleEmbedding pyhash text = zeroVector := by
  have hraw : rawEmbedding pyhash text = List.replicate vector_size 0 := by
    unfold rawEmbedding
    rw [h]
    rfl
  have hvec : (List.replicate vector_size (0 : ℚ)).map (fun q : ℚ => (q : ℝ))
      = zeroVector := by
    simp [zeroVector, List.map_replicate]
  have hmag : l2norm zeroVector = 0 := by
    simp [l2norm, zeroVector, List.map_replicate, List.sum_replicate]
  simp only [createSimpleEmbedding]
  rw [hraw, hvec, hmag]
  simp

theorem cast_list_sum : ∀ l : List ℚ,
    ((l.map (fun q : ℚ => (q : ℝ))).sum) = ((l.sum : ℚ) : ℝ)
  | [] => by simp
  | x :: l => by
    rw [List.map_cons, List.sum_cons, cast_list_sum l, List.sum_cons, Rat.cast_add]

theorem sumsq_nonneg (v : List ℝ) : 0 ≤ (v.map (fun x => x * x)).sum := by
  apply List.sum_nonneg
  intro y hy
  obtain ⟨a, _, rfl⟩ := List.mem_map.mp hy
  exact mul_self_nonneg a

theorem sumsq_pos_of_kept_ne (pyhash : List Char → Int) (text : List Char)
    (h : (embWords text).filter isKeptWord ≠ []) :
    0 < ((((rawEmbedding pyhash text).map (fun q : ℚ => (q : ℝ))).map
      (fun x => x * x)).sum) := by
  have hsumq := rawEmbedding_sum_pos pyhash text h
  have hsum : 0 < ((rawEmbedding pyhash text).map (fun q : ℚ => (q : ℝ))).sum := by
    rw [cast_list_sum]
    exact_mod_cast hsumq
  obtain ⟨x, hxmem, hxne⟩ :
      ∃ x ∈ (rawEmbedding pyhash text).map (fun q : ℚ => (q : ℝ)), x ≠ 0 := by
    by_contra hall
    push_neg at hall
    rw [List.sum_eq_zero hall] at hsum
    exact lt_irrefl 0 hsum
  have hxx : x * x ∈ ((rawEmbedding pyhash text).map (fun q : ℚ => (q : ℝ))).map
      (fun x => x * x) := List.mem_map.mpr ⟨x, hxmem, rfl⟩
  have hle := List.single_le_sum (l := ((rawEmbedding pyhash text).map
      (fun q : ℚ => (q : ℝ))).map (fun x => x * x))
    (by intro y hy; obtain ⟨a, _, rfl⟩ := List.mem_map.mp hy; exact mul_self_nonneg a)
    _ hxx
  have hpos : 0 < x * x := mul_self_pos.mpr hxne
  linarith

theorem sum_map_div_sq : ∀ (v : List ℝ) (m : ℝ),
    ((v.map (fun x => x / m)).map (fun x => x * x)).sum
      = (v.map (fun x => x * x)).sum / (m * m)
  | [], m => by simp
  | x :: v, m => by
    simp only [List.map_cons, List.sum_cons, sum_map_div_sq v m, add_div]
    rw [div_mul_div_comm]

theorem createSimpleEmbedding_normalized (pyhash : List Char → Int)
    (text : List Char) (h : (embWords text).filter isKeptWord ≠ []) :
    l2norm (createSimpleEmbedding pyhash text) = 1
    ∧ createSimpleEmbedding pyhash text ≠ zeroVector := by
  have hS := sumsq_pos_of_kept_ne pyhash text h
  have hmagpos : 0 < l2norm ((rawEmbedding pyhash text).map (fun q : ℚ => (q : ℝ))) := by
    unfold l2norm
    exact Real.sqrt_pos.mpr hS
  have hemb : createSimpleEmbedding pyhash text
      = ((rawEmbedding pyhash text).map (fun q : ℚ => (q : ℝ))).map
          (fun x => x / l2norm ((rawEmbedding pyhash text).map (fun q : ℚ => (q : ℝ)))) := by
    simp only [createSimpleEmbedding]
    rw [if_pos hmagpos]
  have hnorm : l2norm (createSimpleEmbedding pyhash text) = 1 := by
    rw [hemb]
    unfold l2norm
    rw [sum_map_div_sq, Real.mul_self_sqrt (le_of_lt hS),
      div_self (ne_of_gt hS), Real.sqrt_one]
  refine ⟨hnorm, ?_⟩
  intro heq
  rw [heq] at hnorm
  have hzn : l2norm zeroVector = 0 := by
    simp [l2norm, zeroVector, List.map_replicate, List.sum_replicate]
  rw [hzn] at hnorm
  exact zero_ne_one hnorm

/-- C5: the embedding function is deterministic (it is a pure function of
the in-process `hash` and the text); the empty string — like any text with
no alphabetic token longer than 2 characters — embeds to the zero vector of
dimension 64; a text with a kept token embeds to a vector of L2 norm 1, in
particular every non-zero output vector is L2-normalised. -/
theorem embedding_deterministic_and_normalized :
    (∀ (pyhash : List Char → Int) (text : List Char),
      createSimpleEmbedding pyhash text = createSimpleEmbedding pyhash text)
  ∧ (∀ pyhash : List Char → Int, createSimpleEmbedding pyhash [] = zeroVector)
  ∧ (∀ (pyhash : List Char → Int) (text : List Char),
      (embWords text).filter isKeptWord = [] →
        createSimpleEmbedding pyhash text = zeroVector)
  ∧ (∀ (pyhash : List Char → Int) (text : List Char),
      (embWords text).filter isKeptWord ≠ [] →
        l2norm (createSimpleEmbedding pyhash text) = 1
        ∧ createSimpleEmbedding pyhash text ≠ zeroVector) := by
  refine ⟨fun _ _ => rfl, ?_, createSimpleEmbedding_of_kept_nil,
    createSimpleEmbedding_normalized⟩
  intro pyhash
  exact createSimpleEmbedding_of_kept_nil pyhash [] (by decide)

theorem embedding_deterministic_and_normalized_witness :
    ((embWords shortTokensText).filter isKeptWord = []
      ∧ createSimpleEmbedding pyhash0 shortTokensText = zeroVector)
  ∧ ((embWords helloText).filter isKeptWord ≠ []
      ∧ l2norm (createSimpleEmbedding pyhash0 helloText) = 1) :=
  ⟨⟨by decide,
    embedding_deterministic_and_normalized.2.2.1 pyhash0 shortTokensText (by decide)⟩,
   ⟨by decide,
    (embedding_deterministic_and_normalized.2.2.2 pyhash0 helloText (by decide)).1⟩⟩

/-! ## C9 — a query identical to a stored chunk outranks unrelated chunks -/

theorem list_sum_eq_range : ∀ l : List ℝ,
    l.sum = ∑ i ∈ Finset.range l.length, l.getD i 0
  | [] => by simp
  | x :: l => by
    rw [List.sum_cons, list_sum_eq_range l, List.length_cons,
      Finset.sum_range_succ' (fun i => (x :: l).getD i 0) l.length]
    simp only [List.getD_cons_succ, List.getD_cons_zero]
    ring

theorem sumsq_eq_range (v : List ℝ) :
    (v.map (fun x => x * x)).sum
      = ∑ i ∈ Finset.range v.length, (v.getD i 0) ^ 2 := by
  rw [list_sum_eq_range, List.length_map]
  apply Finset.sum_congr rfl
  intro i hi
  have hi' : i < v.length := Finset.mem_range.mp hi
  rw [List.getD_eq_getElem _ 0 (by simpa using hi'), List.getD_eq_getElem _ 0 hi',
    List.getElem_map]
  ring

theorem dot_eq_range (v w : List ℝ) (h : v.length = w.length) :
    (List.zipWith (fun a b => a * b) v w).sum
      = ∑ i ∈ Finset.range v.length, v.getD i 0 * w.getD i 0 := by
  have hlen : (List.zipWith (fun a b => a * b) v w).length = v.length := by
    rw [List.length_zipWith, ← h, Nat.min_self]
  rw [list_sum_eq_range, hlen]
  apply Finset.sum_congr rfl
  intro i hi
  have hi' : i < v.length := Finset.mem_range.mp hi
  rw [List.getD_eq_getElem _ 0 (by rw [hlen]; exact hi'),
    List.getD_eq_getElem _ 0 hi', List.getD_eq_getElem _ 0 (by rw [← h]; exact hi')]
  simp [List.getElem_zipWith]

theorem calculateCosineSimilarity_le_one (v w : List ℝ) :
    calculateCosineSimilarity v w ≤ 1 := by
  simp only [calculateCosineSimilarity]
  by_cases hl : v.length ≠ w.length
  · rw [if_pos hl]
    norm_num
  · rw [if_neg hl]
    push_neg at hl
    by_cases hm : Real.sqrt ((v.map fun a => a * a).sum) = 0
        ∨ Real.sqrt ((w.map fun b => b * b).sum) = 0
    · rw [if_pos hm]
      norm_num
    · rw [if_neg hm]
      push_neg at hm
      obtain ⟨hm1, hm2⟩ := hm
      have h1 : 0 < Real.sqrt ((v.map fun a => a * a).sum) :=
        lt_of_le_of_ne (Real.sqrt_nonneg _) (Ne.symm hm1)
      have h2 : 0 < Real.sqrt ((w.map fun b => b * b).sum) :=
        lt_of_le_of_ne (Real.sqrt_nonneg _) (Ne.symm hm2)
      rw [div_le_one (mul_pos h1 h2)]
      have hw : ∑ i ∈ Finset.range v.length, (w.getD i 0) ^ 2
          = (w.map (fun x => x * x)).sum := by
        rw [sumsq_eq_range w, hl]
      calc (List.zipWith (fun a b => a * b) v w).sum
          = ∑ i ∈ Finset.range v.length, v.getD i 0 * w.getD i 0 :=
            dot_eq_range v w hl
        _ ≤ Real.sqrt (∑ i ∈ Finset.range v.length, (v.getD i 0) ^ 2)
              * Real.sqrt (∑ i ∈ Finset.range v.length, (w.getD i 0) ^ 2) :=
            Real.sum_mul_le_sqrt_mul_sqrt _ _ _
        _ = Real.sqrt ((v.map fun a => a * a).sum)
              * Real.sqrt ((w.map fun b => b * b).sum) := by
            rw [← sumsq_eq_range v, hw]

theorem calculateCosineSimilarity_self (v : List ℝ)
    (h : (v.map (fun x => x * x)).sum ≠ 0) :
    calculateCosineSimilarity v v = 1 := by
  have hS : 0 < (v.map (fun x => x * x)).sum :=
    lt_of_le_of_ne (sumsq_nonneg v) (Ne.symm h)
  have hm : 0 < Real.sqrt ((v.map fun x => x * x).sum) := Real.sqrt_pos.mpr hS
  simp only [calculateCosineSimilarity]
  rw [if_neg (by simp)]
  rw [if_neg (by push_neg; exact ⟨ne_of_gt hm, ne_of_gt hm⟩)]
  simp only [List.zipWith_same]
  rw [Real.mul_self_sqrt (le_of_lt hS)]
  exact div_self h

theorem keywordOverlapOf_nonneg (query content : List Char) :
    0 ≤ keywordOverlapOf query content := by
  simp only [keywordOverlapOf]
  by_cases h : queryWordSet query = []
  · rw [if_pos h]
  · rw [if_neg h]
    positivity

theorem keywordOverlapOf_self (query : List Char) (h : queryWordSet query ≠ []) :
    keywordOverlapOf query query = 1 := by
  simp only [keywordOverlapOf]
  rw [if_neg h]
  have hfil : (queryWordSet query).filter
      (fun w => decide (w ∈ pySplit (pyLower query))) = queryWordSet query := by
    apply List.filter_eq_self.mpr
    intro w hw
    simp only [decide_eq_true_eq]
    exact List.mem_dedup.mp hw
  rw [hfil, div_self]
  rw [Nat.cast_ne_zero]
  intro hz
  exact h (List.length_eq_zero.mp hz)

theorem keywordOverlapOf_disjoint (query content : List Char)
    (hdisj : ∀ w ∈ pySplit (pyLower query), w ∉ pySplit (pyLower content)) :
    keywordOverlapOf query content = 0 := by
  simp only [keywordOverlapOf]
  by_cases h : queryWordSet query = []
  · rw [if_pos h]
  · rw [if_neg h]
    have hfil : (queryWordSet query).filter
        (fun w => decide (w ∈ pySplit (pyLower content))) = [] := by
      apply List.filter_eq_nil_iff.mpr
      intro w hw
      simp only [decide_eq_true_eq]
      exact hdisj w (List.mem_dedup.mp hw)
    rw [hfil]
    simp

/-- C9: when the query text is identical to a stored chunk's full text (and
that chunk's stored embedding is the embedding of its text, as ingestion
stores it), the chunk's combined score is at least the score of every chunk
sharing no token with the query. -/
theorem self_query_ranks_top (pyhash : List Char → Int) (query : List Char)
    (selfRow otherRow : JoinedChunkRow)
    (hcontent : selfRow.content = query)
    (hemb : selfRow.embedding = createSimpleEmbedding pyhash selfRow.content)
    (hdisj : ∀ w ∈ pySplit (pyLower query), w ∉ pySplit (pyLower otherRow.content)) :
    (scoreRow pyhash query otherRow).score ≤ (scoreRow pyhash query selfRow).score := by
  have hemb' : selfRow.embedding = createSimpleEmbedding pyhash query := by
    rw [hemb, hcontent]
  have hoverlapO : keywordOverlapOf query otherRow.content = 0 :=
    keywordOverlapOf_disjoint query otherRow.content hdisj
  simp only [scoreRow]
  rw [hcontent, hemb', hoverlapO]
  by_cases hk : (embWords query).filter isKeptWord = []
  · have hz := createSimpleEmbedding_of_kept_nil pyhash query hk
    rw [hz]
    have hzero : ∀ x ∈ zeroVector, x = 0 := fun x hx => List.eq_of_mem_replicate hx
    rw [(calculateCosineSimilarity_zero_left zeroVector otherRow.embedding hzero).1,
      (calculateCosineSimilarity_zero_left zeroVector zeroVector hzero).1]
    have hov := keywordOverlapOf_nonneg query query
    have hov' : (0 : ℝ) ≤ (keywordOverlapOf query query : ℝ) := by exact_mod_cast hov
    push_cast
    linarith
  · obtain ⟨hn1, _⟩ := createSimpleEmbedding_normalized pyhash query hk
    have hS : ((createSimpleEmbedding pyhash query).map (fun x => x * x)).sum = 1 := by
      unfold l2norm at hn1
      exact Real.sqrt_eq_one.mp hn1
    have hcos_self :
        calculateCosineSimilarity (createSimpleEmbedding pyhash query)
          (createSimpleEmbedding pyhash query) = 1 :=
      calculateCosineSimilarity_self _ (by rw [hS]; exact one_ne_zero)
    have hcos_other :=
      calculateCosineSimilarity_le_one (createSimpleEmbedding pyhash query)
        otherRow.embedding
    have hoverlap_self : keywordOverlapOf query query = 1 := by
      apply keywordOverlapOf_self
      intro hq
      apply hk
      have hbase : pySplit (pyLower query) = [] :=
        (List.dedup_eq_nil (pySplit (pyLower query))).mp hq
      have hemb0 : embWords query = [] := hbase
      rw [hemb0]
      rfl
    rw [hcos_self, hoverlap_self]
    push_cast
    linarith

theorem self_query_ranks_top_witness :
    (sampleSelfRow.content = helloText
      ∧ sampleSelfRow.embedding = createSimpleEmbedding pyhash0 sampleSelfRow.content
      ∧ (∀ w ∈ pySplit (pyLower helloText), w ∉ pySplit (pyLower sampleOtherRow.content)))
    ∧ (scoreRow pyhash0 helloText sampleOtherRow).score
        ≤ (scoreRow pyhash0 helloText sampleSelfRow).score :=
  ⟨⟨rfl, rfl, by decide⟩,
   self_query_ranks_top pyhash0 helloText sampleSelfRow sampleOtherRow rfl rfl (by decide)⟩

/-! ## C7 — chunk offset invariants; C1 — chunk coverage -/

theorem foldl_rfind_lt (c : Char) (a b : Nat) :
    ∀ (l : List (Nat × Char)) (acc : Int), acc < (b : Int) →
      l.foldl (fun acc p =>
        if a ≤ p.1 && p.1 < b && p.2 == c then (p.1 : Int) else acc) acc < (b : Int)
  | [], _, h => h
  | p :: l, acc, h => by
    rw [List.foldl_cons]
    apply foldl_rfind_lt c a b l
    by_cases hc : (a ≤ p.1 && p.1 < b && p.2 == c) = true
    · rw [if_pos hc]
      simp only [Bool.and_eq_true, decide_eq_true_eq] at hc
      exact_mod_cast hc.1.2
    · rw [if_neg hc]
      exact h

theorem pyRfind_lt (s : List Char) (c : Char) (a b : Nat) :
    pyRfind s c a b < (b : Int) := by
  unfold pyRfind
  apply foldl_rfind_lt
  omega

theorem pyRfind_not_mem (s : List Char) (c : Char) (a b : Nat)
    (h : ∀ x ∈ s, x ≠ c) : pyRfind s c a b = -1 := by
  unfold pyRfind
  have hs : ∀ p ∈ s.enum, p.2 ≠ c := fun p hp => h p.2 (List.snd_mem_of_mem_enum hp)
  generalize s.enum = l at hs
  induction l with
  | nil => rfl
  | cons p l ih =>
    rw [List.foldl_cons]
    have hne : (p.2 == c) = false :=
      beq_eq_false_iff_ne.mpr (hs p (List.mem_cons_self p l))
    rw [hne]
    simp only [Bool.and_false]
    rw [if_neg (by simp)]
    exact ih (fun q hq => hs q (List.mem_cons_of_mem p hq))

theorem windowEnd_le (content : List Char) (start : Nat) :
    windowEnd content start ≤ content.length := by
  unfold windowEnd
  by_cases h0 : min (start + chunk_size) content.length < content.length
  · rw [if_pos h0]
    by_cases hs : (start : Int) + (chunk_size / 2 : Nat)
        < max (pyRfind content '.' start (min (start + chunk_size) content.length))
            (max (pyRfind content '!' start (min (start + chunk_size) content.length))
              (pyRfind content '?' start (min (start + chunk_size) content.length)))
    · rw [if_pos hs]
      have h1 := pyRfind_lt content '.' start (min (start + chunk_size) content.length)
      have h2 := pyRfind_lt content '!' start (min (start + chunk_size) content.length)
      have h3 := pyRfind_lt content '?' start (min (start + chunk_size) content.length)
      have hmax : max (pyRfind content '.' start (min (start + chunk_size) content.length))
            (max (pyRfind content '!' start (min (start + chunk_size) content.length))
              (pyRfind content '?' start (min (start + chunk_size) content.length)))
          < ((min (start + chunk_size) content.length : Nat) : Int) :=
        max_lt h1 (max_lt h2 h3)
      omega
    · rw [if_neg hs]
      omega
  · rw [if_neg h0]
    omega

theorem windowEnd_pos (content : List Char) (start : Nat)
    (h : start < content.length) : start < windowEnd content start := by
  have hcs : chunk_size = 1000 := rfl
  unfold windowEnd
  by_cases h0 : min (start + chunk_size) content.length < content.length
  · rw [if_pos h0]
    by_cases hs : (start : Int) + (chunk_size / 2 : Nat)
        < max (pyRfind content '.' start (min (start + chunk_size) content.length))
            (max (pyRfind content '!' start (min (start + chunk_size) content.length))
              (pyRfind content '?' start (min (start + chunk_size) content.length)))
    · rw [if_pos hs]
      omega
    · rw [if_neg hs]
      omega
  · rw [if_neg h0]
    omega

theorem chunkLoop_bounds (content : List Char) :
    ∀ (fuel start : Nat), ∀ ch ∈ chunkLoop content fuel start,
      start ≤ ch.start ∧ ch.start < ch.stop ∧ ch.stop ≤ content.length
        ∧ ch.content ≠ []
  | 0, start => by
    intro ch hch
    simp [chunkLoop] at hch
  | fuel + 1, start => by
    intro ch hch
    simp only [chunkLoop] at hch
    by_cases hlt : start < content.length
    · rw [if_pos hlt] at hch
      have hbound_rest : ∀ ch' ∈ (if max (start + chunk_size - chunk_overlap)
            (windowEnd content start) < content.length then
            chunkLoop content fuel
              (max (start + chunk_size - chunk_overlap) (windowEnd content start))
          else []),
          start ≤ ch'.start ∧ ch'.start < ch'.stop ∧ ch'.stop ≤ content.length
            ∧ ch'.content ≠ [] := by
        intro ch' hch'
        by_cases hr : max (start + chunk_size - chunk_overlap)
            (windowEnd content start) < content.length
        · rw [if_pos hr] at hch'
          obtain ⟨h1, h2, h3, h4⟩ := chunkLoop_bounds content fuel _ ch' hch'
          have hcs : chunk_size = 1000 := rfl
          have hco : chunk_overlap = 200 := rfl
          refine ⟨?_, h2, h3, h4⟩
          omega
        · rw [if_neg hr] at hch'
          simp at hch'
      by_cases hempty : pyStrip ((content.drop start).take
          (windowEnd content start - start)) = []
      · rw [if_pos hempty] at hch
        exact hbound_rest ch hch
      · rw [if_neg hempty] at hch
        rcases List.mem_cons.mp hch with rfl | hmem
        · exact ⟨le_refl _, windowEnd_pos content start hlt,
            windowEnd_le content start, hempty⟩
        · exact hbound_rest ch hmem
    · rw [if_neg hlt] at hch
      simp at hch

theorem chunkLoop_pairwise (content : List Char) :
    ∀ (fuel start : Nat),
      (chunkLoop content fuel start).Pairwise (fun a b => a.start < b.start)
  | 0, _ => by simp [chunkLoop]
  | fuel + 1, start => by
    simp only [chunkLoop]
    by_cases hlt : start < content.length
    · rw [if_pos hlt]
      have hrest : (if max (start + chunk_size - chunk_overlap)
            (windowEnd content start) < content.length then
            chunkLoop content fuel
              (max (start + chunk_size - chunk_overlap) (windowEnd content start))
          else []).Pairwise (fun a b => a.start < b.start) := by
        by_cases hr : max (start + chunk_size - chunk_overlap)
            (windowEnd content start) < content.length
        · rw [if_pos hr]
          exact chunkLoop_pairwise content fuel _
        · rw [if_neg hr]
          exact List.Pairwise.nil
      by_cases hempty : pyStrip ((content.drop start).take
          (windowEnd content start - start)) = []
      · rw [if_pos hempty]
        exact hrest
      · rw [if_neg hempty]
        refine List.Pairwise.cons ?_ hrest
        intro b hb
        by_cases hr : max (start + chunk_size - chunk_overlap)
            (windowEnd content start) < content.length
        · rw [if_pos hr] at hb
          have h1 := (chunkLoop_bounds content fuel _ b hb).1
          have h2 := windowEnd_pos content start hlt
          have hcs : chunk_size = 1000 := rfl
          have hco : chunk_overlap = 200 := rfl
          show start < b.start
          omega
        · rw [if_neg hr] at hb
          simp at hb
    · rw [if_neg hlt]
      exact List.Pairwise.nil

/-- C7: every produced chunk satisfies `0 ≤ start < end ≤ len(content)` and
has non-empty trimmed text; chunk starts strictly increase along the list;
the chunk indices assigned by `enumerate` when storing are `0, 1, 2, ...`
in list order. -/
theorem chunk_offsets_invariant :
    (∀ content : List Char,
      (createDocumentChunks content).Forall
        (fun ch => ch.start < ch.stop ∧ ch.stop ≤ content.length
          ∧ ch.content ≠ []))
  ∧ (∀ content : List Char,
      (createDocumentChunks content).Pairwise (fun a b => a.start < b.start))
  ∧ (∀ content : List Char,
      ((createDocumentChunks content).enum.map Prod.fst)
        = List.range (createDocumentChunks content).length) := by
  refine ⟨?_, ?_, ?_⟩
  · intro content
    rw [List.forall_iff_forall_mem]
    intro ch hch
    obtain ⟨_, h2, h3, h4⟩ :=
      chunkLoop_bounds content (content.length + 1) 0 ch hch
    exact ⟨h2, h3, h4⟩
  · intro content
    exact chunkLoop_pairwise content (content.length + 1) 0
  · intro content
    exact List.enum_map_fst _

theorem windowEnd_no_sentence (content : List Char) (start : Nat)
    (hp : ∀ x ∈ content, x ≠ '.' ∧ x ≠ '!' ∧ x ≠ '?') :
    windowEnd content start = min (start + chunk_size) content.length := by
  unfold windowEnd
  by_cases h0 : min (start + chunk_size) content.length < content.length
  · rw [if_pos h0]
    rw [pyRfind_not_mem content '.' start _ (fun x hx => (hp x hx).1),
      pyRfind_not_mem content '!' start _ (fun x hx => (hp x hx).2.1),
      pyRfind_not_mem content '?' start _ (fun x hx => (hp x hx).2.2)]
    rw [if_neg (by simp only [max_self]; omega)]
  · rw [if_neg h0]

theorem pyStrip_eq_nil_iff (l : List Char) :
    pyStrip l = [] ↔ ∀ x ∈ l, x.isWhitespace := by
  unfold pyStrip
  rw [List.reverse_eq_nil_iff, List.dropWhile_eq_nil_iff]
  constructor
  · intro h x hx
    rcases List.mem_append.mp
        ((List.takeWhile_append_dropWhile (p := Char.isWhitespace) (l := l)) ▸ hx)
      with h1 | h2
    · exact List.mem_takeWhile_imp h1
    · exact h x (List.mem_reverse.mpr h2)
  · intro h x hx
    exact h x (List.dropWhile_subset _ (List.mem_reverse.mp hx))

theorem chunkLoop_covers (content : List Char)
    (hp : ∀ x ∈ content, x ≠ '.' ∧ x ≠ '!' ∧ x ≠ '?') :
    ∀ (fuel start : Nat), content.length - start < fuel →
      ∀ i, start ≤ i → i < content.length →
        ¬(content.getD i ' ').isWhitespace →
        ∃ ch ∈ chunkLoop content fuel start, ch.start ≤ i ∧ i < ch.stop
  | 0, start, hfuel => by omega
  | fuel + 1, start, hfuel => by
    intro i hsi hiN hiws
    have hlt : start < content.length := lt_of_le_of_lt hsi hiN
    have hwe := windowEnd_no_sentence content start hp
    have hcs : chunk_size = 1000 := rfl
    have hco : chunk_overlap = 200 := rfl
    simp only [chunkLoop]
    rw [if_pos hlt]
    by_cases hie : i < windowEnd content start
    · have hidx : i - start < ((content.drop start).take
          (windowEnd content start - start)).length := by
        rw [List.length_take, List.length_drop]
        have := windowEnd_le content start
        omega
      have hget : ((content.drop start).take
            (windowEnd content start - start)).getD (i - start) ' '
          = content.getD i ' ' := by
        rw [List.getD_eq_getElem _ _ hidx, List.getD_eq_getElem _ _ hiN]
        rw [List.getElem_take, List.getElem_drop]
        congr 1
        omega
      have hkeep : pyStrip ((content.drop start).take
          (windowEnd content start - start)) ≠ [] := by
        rw [Ne, pyStrip_eq_nil_iff]
        intro hall
        apply hiws
        rw [← hget]
        apply hall
        rw [List.getD_eq_getElem _ _ hidx]
        exact List.getElem_mem hidx
      rw [if_neg hkeep]
      exact ⟨_, List.mem_cons_self _ _, hsi, hie⟩
    · push_neg at hie
      have heq : windowEnd content start = start + chunk_size := by
        rw [hwe]
        omega
      have hstart' : max (start + chunk_size - chunk_overlap)
          (windowEnd content start) = windowEnd content start := by
        omega
      rw [hstart']
      have hrN : windowEnd content start < content.length :=
        lt_of_le_of_lt hie hiN
      rw [if_pos hrN]
      obtain ⟨ch, hch, hc1, hc2⟩ :=
        chunkLoop_covers content hp fuel (windowEnd content start)
          (by omega) i hie hiN hiws
      by_cases hkeep : pyStrip ((content.drop start).take
          (windowEnd content start - start)) = []
      · rw [if_pos hkeep]
        exact ⟨ch, hch, hc1, hc2⟩
      · rw [if_neg hkeep]
        exact ⟨ch, List.mem_cons_of_mem _ hch, hc1, hc2⟩

/-- C1 (amended): coverage holds only in the absence of sentence-boundary
snapping: when the document contains no sentence-terminal character
(`.`, `!`, `?`), every non-whitespace offset of the document is covered by
a produced chunk's `[start, end)` range.  In general the claim is false:
because the next window starts at `max(start + chunk_size - chunk_overlap,
end)`, a window whose end is snapped back before
`start + chunk_size - chunk_overlap` leaves the offsets between its end and
the next start uncovered (see `chunk_coverage_counterexample`). -/
theorem chunk_coverage_amended (content : List Char)
    (hp : ∀ x ∈ content, x ≠ '.' ∧ x ≠ '!' ∧ x ≠ '?') :
    ∀ i < content.length, ¬(content.getD i ' ').isWhitespace →
      ∃ ch ∈ createDocumentChunks content, ch.start ≤ i ∧ i < ch.stop := by
  intro i hi hws
  exact chunkLoop_covers content hp (content.length + 1) 0 (by omega) i
    (Nat.zero_le i) hi hws

theorem chunk_coverage_amended_witness :
    (∀ x ∈ smallDoc, x ≠ '.' ∧ x ≠ '!' ∧ x ≠ '?')
    ∧ (∃ ch ∈ createDocumentChunks smallDoc, ch.start ≤ 1 ∧ 1 < ch.stop) :=
  ⟨by decide, chunk_coverage_amended smallDoc (by decide) 1 (by decide) (by decide)⟩

set_option maxRecDepth 10000 in
/-- C1 is refuted on the code: for `gapDoc` (501 letters, a period, 600 more
letters) the produced chunks cover `[0,502)` and `[800,1102)` only, so
offset 502 — a non-whitespace letter — belongs to no chunk and the claimed
gap-free coverage fails. -/
theorem chunk_coverage_counterexample :
    ¬ (gapDoc.getD 502 ' ').isWhitespace
    ∧ ¬ chunksCover (createDocumentChunks gapDoc) gapDoc.length := by
  constructor
  · decide
  · intro hcov
    have he : createDocumentChunks gapDoc =
        [⟨List.replicate 501 'a' ++ ['.'], 0, 502⟩,
         ⟨List.replicate 302 'a', 800, 1102⟩] := by decide
    obtain ⟨ch, hch, h1, h2⟩ := hcov 502 (by decide)
    rw [he] at hch
    rcases List.mem_cons.mp hch with rfl | hch
    · exact absurd h2 (by decide)
    · rcases List.mem_cons.mp hch with rfl | hch
      · exact absurd h1 (by decide)
      · simp at hch

/-! ## C4 — retrieval ordering, bound, default and tie-breaking -/

theorem scoreLe_trans : ∀ a b c : ScoredChunk,
    decide (b.score ≤ a.score) = true → decide (c.score ≤ b.score) = true →
    decide (c.score ≤ a.score) = true := by
  intro a b c hab hbc
  rw [decide_eq_true_eq] at hab hbc ⊢
  exact le_trans hbc hab

theorem scoreLe_total : ∀ a b : ScoredChunk,
    (decide (b.score ≤ a.score) || decide (a.score ≤ b.score)) = true := by
  intro a b
  rw [Bool.or_eq_true, decide_eq_true_eq, decide_eq_true_eq]
  exact le_total b.score a.score

theorem retrieve_stable_helper (pyhash : List Char → Int)
    (rows : List JoinedChunkRow) (query : List Char) (k : Nat)
    (hids : rows.Pairwise (fun a b => a.id < b.id)) :
    (retrieveRelevantChunks pyhash rows query k).Pairwise
      (fun a b => a.score = b.score → a.chunkId < b.chunkId) := by
  have hsp : (scoredChunks pyhash query rows).Pairwise
      (fun a b => a.chunkId < b.chunkId) := by
    rw [scoredChunks_eq_filter_map]
    exact (List.Pairwise.map (scoreRow pyhash query) (fun a b h => h)
      hids).sublist (List.filter_sublist _)
  have hnd : (scoredChunks pyhash query rows).Nodup := by
    apply List.Pairwise.imp ?_ hsp
    intro a b hab heq
    rw [heq] at hab
    exact lt_irrefl _ hab
  have hperm := List.mergeSort_perm (scoredChunks pyhash query rows)
    (fun a b => decide (b.score ≤ a.score))
  have hing : ((scoredChunks pyhash query rows).mergeSort
      (fun a b => decide (b.score ≤ a.score))).Nodup := hperm.nodup_iff.mpr hnd
  have hmain : ((scoredChunks pyhash query rows).mergeSort
      (fun a b => decide (b.score ≤ a.score))).Pairwise
      (fun a b => a.score = b.score → a.chunkId < b.chunkId) := by
    rw [List.pairwise_iff_get]
    intro i j hij hscore
    by_contra hno
    push_neg at hno
    have hinj : Function.Injective (((scoredChunks pyhash query rows).mergeSort
        (fun a b => decide (b.score ≤ a.score))).get) :=
      List.nodup_iff_injective_get.mp hing
    have hne : ((scoredChunks pyhash query rows).mergeSort
        (fun a b => decide (b.score ≤ a.score))).get i
        ≠ ((scoredChunks pyhash query rows).mergeSort
        (fun a b => decide (b.score ≤ a.score))).get j :=
      fun h => absurd (hinj h) (Fin.ne_of_lt hij)
    have hxmem : ((scoredChunks pyhash query rows).mergeSort
        (fun a b => decide (b.score ≤ a.score))).get i
        ∈ scoredChunks pyhash query rows :=
      List.mem_mergeSort.mp (List.get_mem _ i.1 i.2)
    have hymem : ((scoredChunks pyhash query rows).mergeSort
        (fun a b => decide (b.score ≤ a.score))).get j
        ∈ scoredChunks pyhash query rows :=
      List.mem_mergeSort.mp (List.get_mem _ j.1 j.2)
    obtain ⟨ix, hix⟩ := List.mem_iff_get.mp hxmem
    obtain ⟨iy, hiy⟩ := List.mem_iff_get.mp hymem
    have hsget := List.pairwise_iff_get.mp hsp
    have hidne : ((scoredChunks pyhash query rows).mergeSort
        (fun a b => decide (b.score ≤ a.score))).get i
        ≠ ((scoredChunks pyhash query rows).mergeSort
        (fun a b => decide (b.score ≤ a.score))).get j := hne
    have hylt : ((((scoredChunks pyhash query rows).mergeSort
          (fun a b => decide (b.score ≤ a.score))).get j).chunkId)
        < ((((scoredChunks pyhash query rows).mergeSort
          (fun a b => decide (b.score ≤ a.score))).get i).chunkId) := by
      rcases lt_trichotomy ((((scoredChunks pyhash query rows).mergeSort
          (fun a b => decide (b.score ≤ a.score))).get j).chunkId)
          ((((scoredChunks pyhash query rows).mergeSort
          (fun a b => decide (b.score ≤ a.score))).get i).chunkId) with h | h | h
      · exact h
      · exfalso
        rcases lt_trichotomy ix iy with hxy | hxy | hxy
        · have hlt := hsget ix iy hxy
          rw [hix, hiy] at hlt
          omega
        · rw [hxy] at hix
          rw [hix] at hiy
          exact hne hiy
        · have hlt := hsget iy ix hxy
          rw [hix, hiy] at hlt
          omega
      · omega
    have hyx : iy < ix := by
      rcases lt_trichotomy iy ix with h | h | h
      · exact h
      · exfalso
        rw [h] at hiy
        rw [hix] at hiy
        exact hne hiy
      · exfalso
        have hlt := hsget ix iy h
        rw [hix, hiy] at hlt
        omega
    have hp2 : ([iy, ix] : List (Fin (scoredChunks pyhash query rows).length)).Pairwise
        (· < ·) := List.pairwise_pair.mpr hyx
    have hsub_s : List.Sublist
        [((scoredChunks pyhash query rows).mergeSort
            (fun a b => decide (b.score ≤ a.score))).get j,
         ((scoredChunks pyhash query rows).mergeSort
            (fun a b => decide (b.score ≤ a.score))).get i]
        (scoredChunks pyhash query rows) := by
      have hmap := List.map_get_sublist hp2
      rw [List.map_cons, List.map_cons, List.map_nil, hiy, hix] at hmap
      exact hmap
    have hle : decide ((((scoredChunks pyhash query rows).mergeSort
          (fun a b => decide (b.score ≤ a.score))).get i).score
        ≤ (((scoredChunks pyhash query rows).mergeSort
          (fun a b => decide (b.score ≤ a.score))).get j).score) = true := by
      rw [decide_eq_true_eq]
      exact le_of_eq hscore
    have hsub_out :=
      List.pair_sublist_mergeSort scoreLe_trans scoreLe_total hle hsub_s
    obtain ⟨is, hiseq, hispw⟩ := List.sublist_eq_map_get hsub_out
    rcases is with _ | ⟨p, is⟩
    · simp at hiseq
    rcases is with _ | ⟨q, is⟩
    · simp at hiseq
    rcases is with _ | ⟨r, is⟩
    · simp only [List.map_cons, List.map_nil] at hiseq
      injection hiseq with h1 hrest
      injection hrest with h2 _
      have hpj : j = p := hinj h1
      have hqi : i = q := hinj h2
      have hpq : p < q := List.pairwise_pair.mp hispw
      rw [← hpj, ← hqi] at hpq
      exact absurd hpq (lt_asymm hij)
    · simp at hiseq
  simp only [retrieveRelevantChunks]
  exact hmain.sublist (List.take_sublist _ _)

/-- C4: retrieval returns at most `max_results` chunks (default 10, from
`self.max_retrieval_chunks`, when the caller supplies none), returns `[]`
— not an error — for a knowledge base with zero chunks, returns the
surviving chunks sorted descending by combined score, and breaks ties by
original chunk insertion order (stable sort): when the scanned rows carry
strictly increasing ids, equal-score results appear in increasing id
order. -/
theorem retrieval_sorted_bounded :
    (∀ (pyhash : List Char → Int) (rows : List JoinedChunkRow)
        (query : List Char) (maxResults : Nat),
      (retrieveRelevantChunks pyhash rows query maxResults).length ≤ maxResults)
  ∧ (∀ (pyhash : List Char → Int) (query : List Char) (maxResults : Nat),
      retrieveRelevantChunks pyhash [] query maxResults = [])
  ∧ (∀ (pyhash : List Char → Int) (rows : List JoinedChunkRow)
        (query : List Char) (maxResults : Nat),
      (retrieveRelevantChunks pyhash rows query maxResults).Pairwise
        (fun a b => b.score ≤ a.score))
  ∧ (∀ (pyhash : List Char → Int) (rows : List JoinedChunkRow)
        (query : List Char),
      queryKnowledgeBase pyhash rows query none
        = retrieveRelevantChunks pyhash rows query 10
      ∧ max_retrieval_chunks = 10)
  ∧ (∀ (pyhash : List Char → Int) (rows : List JoinedChunkRow)
        (query : List Char) (maxResults : Nat),
      rows.Pairwise (fun a b => a.id < b.id) →
        (retrieveRelevantChunks pyhash rows query maxResults).Pairwise
          (fun a b => a.score = b.score → a.chunkId < b.chunkId)) := by
  refine ⟨?_, ?_, ?_, ?_, retrieve_stable_helper⟩
  · intro pyhash rows query maxResults
    simp only [retrieveRelevantChunks]
    exact List.length_take_le _ _
  · intro pyhash query maxResults
    simp only [retrieveRelevantChunks]
    rw [show scoredChunks pyhash query [] = [] from rfl, List.mergeSort_nil,
      List.take_nil]
  · intro pyhash rows query maxResults
    simp only [retrieveRelevantChunks]
    have hsorted := List.sorted_mergeSort scoreLe_trans scoreLe_total
      (scoredChunks pyhash query rows)
    exact (hsorted.imp (fun h => of_decide_eq_true h)).sublist
      (List.take_sublist _ _)
  · intro pyhash rows query
    exact ⟨rfl, rfl⟩

theorem retrieval_sorted_bounded_witness :
    ([sampleSelfRow, sampleOtherRow].Pairwise (fun a b => a.id < b.id))
    ∧ (retrieveRelevantChunks pyhash0 [sampleSelfRow, sampleOtherRow]
        helloText 5).Pairwise
        (fun a b => a.score = b.score → a.chunkId < b.chunkId) :=
  ⟨by rw [List.pairwise_pair]; decide,
   retrieval_sorted_bounded.2.2.2.2 pyhash0 [sampleSelfRow, sampleOtherRow]
     helloText 5 (by rw [List.pairwise_pair]; decide)⟩

end GuruRag
